import Mathlib

/-!
Shallow embedding of `src/nix/installables.cc`: the installable parser,
lock-file mode selection, flake eval-cache resolution, buildable assembly,
store-path extraction, and the flake closure / GC-root builder.
External collaborators (store validity checks, the evaluator, flake-reference
parsing) are modelled as explicit oracle functions passed in, mirroring the
narrow interfaces the code consumes.
-/

deriving instance DecidableEq for Except

namespace Installables

/-! ## Lock-file mode selection (`MixFlakeOptions::getLockFileMode`) -/

/-- The `flake::HandleLockFile` enumeration from `flake/flake.hh`. -/
inductive HandleLockFile where
  | AllPure
  | UseNewLockFile
  | UseUpdatedLockFile
  | RecreateLockFile
  | UpdateLockFile
deriving DecidableEq, Repr

/-- Embedding of `MixFlakeOptions::getLockFileMode` (installables.cc lines 36-45):
nested conditional over the three option booleans. -/
def getLockFileMode (useRegistries recreateLockFile saveLockFile : Bool) :
    HandleLockFile :=
  if useRegistries then
    if recreateLockFile then
      if saveLockFile then .RecreateLockFile else .UseNewLockFile
    else
      if saveLockFile then .UpdateLockFile else .UseUpdatedLockFile
  else .AllPure

/-! ## GC-root symlink name encoding (installables.cc lines 244-248) -/

/-- Modelled from the spec: `replaceStrings` lives in the repository's libutil,
which is not under `src/`; the spec describes the three uses here as
percent-encoding single characters ("`%`→`%25`, `/`→`%2f`, `:`→`%3a`"), so it
is modelled as replacing every occurrence of one character by a replacement
string (the replacement is not rescanned, matching a left-to-right scan of
the input). -/
def replaceStrings (s : List Char) (c : Char) (rep : List Char) : List Char :=
  match s with
  | [] => []
  | x :: rest => (if x = c then rep else [x]) ++ replaceStrings rest c rep

/-- The symlink-name encoding of a flake reference's string form
(installables.cc lines 246-248): the three replacements applied in order. -/
def encodeRefName (s : List Char) : List Char :=
  replaceStrings
    (replaceStrings
      (replaceStrings s '%' "%25".toList)
      '/' "%2f".toList)
    ':' "%3a".toList

/-! ## Locked-input graphs and the closure builder (`makeFlakeClosureGCRoot`) -/

/-- A locked input (`flake::LockedInput`): enough information to compute its
store path without fetching (modelled by the precomputed `path` field, the
result of `computeStorePath`), plus its own nested inputs keyed by flake id. -/
inductive LIn where
  | node (path : String) (inputs : List (String × LIn))

/-- The `computeStorePath` result for a locked input. -/
def LIn.path : LIn → String
  | .node p _ => p

/-- The nested `LockedInputs` of a locked input. -/
def LIn.inputs : LIn → List (String × LIn)
  | .node _ is => is

/-- Number of nodes in a forest of locked inputs. -/
def sizeL : List (String × LIn) → Nat
  | [] => 0
  | (_, .node _ is) :: rest => 1 + sizeL is + sizeL rest

/-- All `computeStorePath` results appearing anywhere in a forest of locked
inputs. -/
def allPathsL : List (String × LIn) → List String
  | [] => []
  | (_, .node p is) :: rest => (p :: allPathsL is) ++ allPathsL rest

/-- Insertion into a `PathSet` (`std::set<Path>::insert`): membership semantics only. -/
def insertPath (acc : List String) (p : String) : List String :=
  if p ∈ acc then acc else p :: acc

/-- The queue loop of `makeFlakeClosureGCRoot` (installables.cc lines 220-234):
pop a `LockedInputs` node, insert each dependency's store path into the
closure when it is currently valid, and push each dependency's own inputs;
also counts how many dependency nodes are visited. -/
def closureLoop (valid : String → Bool) (q : List (List (String × LIn)))
    (acc : List String) : List String × Nat :=
  match q with
  | [] => (acc, 0)
  | deps :: qrest =>
    let acc2 := deps.foldl
      (fun a d => if valid d.2.path then insertPath a d.2.path else a) acc
    let r := closureLoop valid
      (qrest ++ deps.map (fun d => d.2.inputs)) acc2
    (r.1, r.2 + deps.length)
termination_by 2 * (q.map sizeL).sum + q.length
decreasing_by
  simp_wf
  have key : ∀ l : List (String × LIn),
      (l.map (fun d => sizeL d.2.inputs)).sum + l.length = sizeL l := by
    intro l
    induction l with
    | nil => simp [sizeL]
    | cons x xs ih =>
      rcases x with ⟨n, p, is⟩
      have e1 : ((n, LIn.node p is) : String × LIn).2.inputs = is := rfl
      simp only [List.map_cons, List.sum_cons, List.length_cons, e1, sizeL]
      omega
  have h2 := key deps
  simp only [List.map_append, List.sum_append, List.length_append,
    List.map_cons, List.sum_cons, List.length_cons, List.map_map,
    List.length_map, Function.comp_def] at h2 ⊢
  omega

/-- The `data` variant of a `FlakeRef`: `IsPath` (a local path) or any other
alternative of the variant (modelled collectively, since
`makeFlakeClosureGCRoot` only distinguishes `IsPath`). -/
inductive FlakeRefData where
  | isPath (path : String)
  | other (tag : String)
deriving DecidableEq, Repr

/-- A flake reference: its `data` variant plus its `to_string()` form
(modelled as a field since reference rendering is external to this file). -/
structure FlakeRef where
  data : FlakeRefData
  str : List Char
deriving DecidableEq, Repr

/-- The structure `flake::ResolvedFlake`, restricted to the fields `makeFlakeClosureGCRoot`
reads: the fetched source's store path and the top-level locked inputs. -/
structure ResolvedFlake where
  sourcePath : String
  lockFile : List (String × LIn)

/-- Observable outcome of `makeFlakeClosureGCRoot`. -/
inductive GCRootResult where
  | localNoop
  | assertionFailure
  | skippedEmpty
  | rootWritten (closure : List String) (symlinkName : List Char)
deriving DecidableEq, Repr

/-- Embedding of `makeFlakeClosureGCRoot` (installables.cc lines 208-253): return
immediately for a local-path reference; assert the flake's own source path is
valid and seed the closure with it; run the queue loop; skip root creation on
an empty closure; otherwise write the manifest and the percent-encoded
symlink root. -/
def makeFlakeClosureGCRoot (valid : String → Bool) (origFlakeRef : FlakeRef)
    (resFlake : ResolvedFlake) : GCRootResult :=
  match origFlakeRef.data with
  | .isPath _ => .localNoop
  | .other _ =>
    if valid resFlake.sourcePath then
      let closure := (closureLoop valid [resFlake.lockFile]
        (insertPath [] resFlake.sourcePath)).1
      if closure.isEmpty then .skippedEmpty
      else .rootWritten closure (encodeRefName origFlakeRef.str)
    else .assertionFailure

/-! ## Eval cache and `InstallableFlake::toDerivations` -/

/-- The record `flake::EvalCache::Derivation`. -/
structure Derivation where
  drvPath : String
  outPath : String
  outputName : String
deriving DecidableEq, Repr

/-- The process-wide eval cache, as an association list keyed by
(fingerprint, attribute path). -/
abbrev Cache := List ((String × String) × Derivation)

/-- Lookup, as in `EvalCache::getDerivation(fingerprint, attrPath)`. -/
def cacheLookup (c : Cache) (fp ap : String) : Option Derivation :=
  match c with
  | [] => none
  | e :: rest => if e.1.1 = fp ∧ e.1.2 = ap then some e.2 else cacheLookup rest fp ap

/-- Insertion, as in `EvalCache::addDerivation(fingerprint, attrPath, drv)`. -/
def cacheInsert (c : Cache) (fp ap : String) (d : Derivation) : Cache :=
  ((fp, ap), d) :: c

/-- Evaluation environment of one `InstallableFlake` resolution, at a fixed
resolved flake (hence a fixed fingerprint).  `attrLookup ap` is the combined
outcome of `findAlongAttrPath` + `getDerivation` on the flake's outputs:
`none` means `AttrPathNotFound` was thrown; `some none` means the attribute
exists but is not a derivation; `some (some d)` means it is derivation `d`.
`isValidPath` is `Store::isValidPath`. -/
structure FlakeEnv where
  fingerprint : String
  attrLookup : String → Option (Option Derivation)
  isValidPath : String → Bool

/-- Errors thrown by `InstallableFlake::toDerivations`. -/
inductive TDError where
  | notProvided
  | notADerivation (ap : String)
deriving DecidableEq, Repr

/-- The candidate loop of `InstallableFlake::toDerivations` (installables.cc
lines 315-347).  `evaluated` tracks whether `vOutputs` has been computed
(`getFlakeOutputs` calls are counted in the third component).  For each
candidate attribute path: consult the cache; on a hit whose recorded
derivation path is still valid, return it at once; otherwise evaluate the
flake's outputs (once per installable), look up the attribute, require a
derivation, record it in the cache and return it; `AttrPathNotFound` moves to
the next candidate; an exhausted candidate list is the
"flake does not provide attribute" error. -/
def tdGo (env : FlakeEnv) (evaluated : Bool) (cache : Cache) :
    List String → Except TDError Derivation × Cache × Nat
  | [] => (.error .notProvided, cache, 0)
  | ap :: rest =>
    let validHit : Option Derivation :=
      match cacheLookup cache env.fingerprint ap with
      | some d => if env.isValidPath d.drvPath then some d else none
      | none => none
    match validHit with
    | some d => (.ok d, cache, 0)
    | none =>
      let cost : Nat := if evaluated then 0 else 1
      match env.attrLookup ap with
      | none =>
        let r := tdGo env true cache rest
        (r.1, r.2.1, r.2.2 + cost)
      | some none => (.error (.notADerivation ap), cache, cost)
      | some (some d) =>
        (.ok d, cacheInsert cache env.fingerprint ap d, cost)

/-- Embedding of `InstallableFlake::getActualAttrPaths` (installables.cc lines 273-284):
each path prefix combined with the first attribute path, followed by the
literal attribute paths. -/
def getActualAttrPaths (pathPres attrPaths : List String) : List String :=
  pathPres.map (fun p => p ++ attrPaths.headD "") ++ attrPaths

/-- Embedding of `InstallableFlake::toDerivations`, given its evaluation environment, the
current eval-cache contents and the installable's path prefixes and attribute
paths.  Returns the result, the updated cache, and how many times the flake's
outputs were evaluated (`getFlakeOutputs` calls). -/
def flakeToDerivations (env : FlakeEnv) (cache : Cache)
    (pathPres attrPaths : List String) :
    Except TDError Derivation × Cache × Nat :=
  tdGo env false cache (getActualAttrPaths pathPres attrPaths)

/-! ## Buildable assembly (`InstallableValue::toBuildables`) -/

/-- A `Buildable`: an optional derivation path (empty string when absent)
plus a map from output name to output store path (association list, unique
keys). -/
structure Buildable where
  drvPath : String
  outputs : List (String × String)
deriving DecidableEq, Repr

/-- Lookup on an output map (`std::map::find`). -/
def mapLookup (m : List (String × String)) (k : String) : Option String :=
  match m with
  | [] => none
  | e :: rest => if e.1 = k then some e.2 else mapLookup rest k

/-- Insertion following `std::map::insert`: inserts only when the key is not yet present. -/
def mapInsert (m : List (String × String)) (k v : String) :
    List (String × String) :=
  match mapLookup m k with
  | some _ => m
  | none => m ++ [(k, v)]

/-- Errors thrown by `InstallableValue::toBuildables`. -/
inductive BuildError where
  | noOutputName (drvPath : String)
deriving DecidableEq, Repr

/-- The first loop of `InstallableValue::toBuildables` (installables.cc lines
147-158): one `Buildable` per derivation record, each with the single output
`outputName -> outPath`; an empty `outputName` is an error. -/
def mkBuildables : List Derivation → Except BuildError (List Buildable)
  | [] => .ok []
  | d :: rest =>
    if d.outputName = "" then .error (.noOutputName d.drvPath)
    else
      match mkBuildables rest with
      | .error e => .error e
      | .ok bs => .ok ({ drvPath := d.drvPath,
                         outputs := [(d.outputName, d.outPath)] } :: bs)

/-- Embedding of `InstallableValue::toBuildables` (installables.cc lines 141-169): build
the per-derivation buildables and the set of derivation paths; if that set is
a singleton, merge all buildables into one whose output map is the union
(`std::map::insert` keeps existing entries); otherwise return them
unchanged. -/
def toBuildables (drvs : List Derivation) : Except BuildError (List Buildable) :=
  match mkBuildables drvs with
  | .error e => .error e
  | .ok res =>
    let drvPaths := (drvs.map (fun d => d.drvPath)).foldl insertPath []
    if drvPaths.length = 1 then
      .ok [{ drvPath := drvPaths.headD "",
             outputs := res.foldl
               (fun acc b => b.outputs.foldl
                 (fun a e => mapInsert a e.1 e.2) acc) [] }]
    else .ok res

/-! ## Store-path extraction (`toStorePaths` / `toStorePath`) -/

/-- Error thrown by `toStorePath`: the C++ message is
"argument '%s' should evaluate to one store path", carrying only the
installable's display string — not the count. -/
inductive StorePathError where
  | notOneStorePath (whatStr : String)
deriving DecidableEq, Repr

/-- Embedding of `toStorePaths` (installables.cc lines 504-514), applied to the buildables
produced by `build` (the concatenation of every installable's buildables):
the set of all output store paths. -/
def toStorePathsB (bs : List Buildable) : List String :=
  bs.foldl (fun acc b => b.outputs.foldl (fun a e => insertPath a e.2) acc) []

/-- Embedding of `toStorePath` (installables.cc lines 516-525): flatten one installable's
buildables to a path set; any size other than one is an error naming the
installable; otherwise return the single path. -/
def toStorePath (whatStr : String) (bs : List Buildable) :
    Except StorePathError String :=
  let paths := toStorePathsB bs
  if paths.length = 1 then .ok (paths.headD "")
  else .error (.notOneStorePath whatStr)

/-! ## The installable parser (`SourceExprCommand::parseInstallables`,
per-string branch with legacy file mode off) -/

/-- Outcome of the `FlakeRef(s, true)` constructor: success, `MissingFlake`
(syntactically a reference, but a local path that is not a flake), or
`BadFlakeRef` (not a valid reference at all). -/
inductive FRParse where
  | ok
  | missingFlake
  | badFlakeRef
deriving DecidableEq, Repr

/-- External collaborators of the parser: the flake-reference constructor,
`Store::followLinksToStorePath` (`none` models the `NotInStore` exception),
and the command's `getDefaultFlakeAttrPaths` /
`getDefaultFlakeAttrPathPrefixes`. -/
structure ParserEnv where
  parseFlakeRef : List Char → FRParse
  follow : List Char → Option (List Char)
  defaultAttrPaths : List (List Char)
  defaultPathPres : List (List Char)

/-- The parsed installable variants produced by the non-file branch of
`parseInstallables` (the file branch produces only `InstallableAttrPath`). -/
inductive Inst where
  | expr (text : List Char)
  | flake (ref : List Char) (attrPaths : List (List Char))
      (pathPres : List (List Char))
  | storePath (path : List Char)
deriving DecidableEq, Repr

/-- The method `Installable::what()` per variant: `InstallableExpr` returns its text,
`InstallableFlake` returns `flakeRef.to_string() + ":" + *attrPaths.begin()`,
`InstallableStorePath` returns its store path. -/
def Inst.what : Inst → List Char
  | .expr t => t
  | .flake ref aps _ => ref ++ ':' :: aps.headD []
  | .storePath p => p

/-- Errors thrown by the per-string parse: the remembered/rethrown
`MissingFlake`, a propagated `BadFlakeRef` (from the colon branch's
`FlakeRef` constructor), and "unsupported argument". -/
inductive ParseError where
  | missingFlakeErr (s : List Char)
  | badFlakeRefErr (s : List Char)
  | unsupportedArgument (s : List Char)
deriving DecidableEq, Repr

/-- Split a string at its rightmost `:` (`s.rfind(':')`), returning the part
before and the part after it. -/
def rsplitColon : List Char → Option (List Char × List Char)
  | [] => none
  | c :: rest =>
    match rsplitColon rest with
    | some (l, r) => some (c :: l, r)
    | none => if c = ':' then some ([], rest) else none

/-- One iteration of the per-string loop of
`SourceExprCommand::parseInstallables` (installables.cc lines 405-456),
legacy file mode off.  In order: an initial `(` makes an inline expression; a
`nixpkgs.` prefix rewrites to the default flake's `legacyPackages` attribute;
then `FlakeRef(s, true)` is attempted — success yields a flake installable
with the default attribute paths, `MissingFlake` is remembered and falls
through, `BadFlakeRef` falls through silently; then a rightmost-colon split
yields a flake installable with the single literal attribute path and the
default path prefixes; then a string containing `/` that resolves to a store
path yields a store-path installable; otherwise the remembered
`MissingFlake` is rethrown if present, else "unsupported argument". -/
def parseOne (env : ParserEnv) (s : List Char) : Except ParseError Inst :=
  if s.take 1 = ['('] then .ok (.expr s)
  else if s.take 8 = "nixpkgs.".toList then
    .ok (.flake "nixpkgs".toList
      [("legacyPackages.".toList ++ s.drop 8)] [])
  else
    match env.parseFlakeRef s with
    | .ok => .ok (.flake s env.defaultAttrPaths [])
    | fr =>
      match rsplitColon s with
      | some (l, r) =>
        match env.parseFlakeRef l with
        | .ok => .ok (.flake l [r] env.defaultPathPres)
        | .missingFlake => .error (.missingFlakeErr l)
        | .badFlakeRef => .error (.badFlakeRefErr l)
      | none =>
        match (if '/' ∈ s then env.follow s else none) with
        | some p => .ok (.storePath p)
        | none =>
          if fr = .missingFlake then .error (.missingFlakeErr s)
          else .error (.unsupportedArgument s)

/-! ## Helper lemmas -/

theorem mem_insertPath (acc : List String) (x p : String) :
    p ∈ insertPath acc x ↔ p = x ∨ p ∈ acc := by
  unfold insertPath
  split
  · constructor
    · exact fun h => Or.inr h
    · rintro (rfl | h)
      · assumption
      · assumption
  · simp

/-! ## C4 -/

/-- C4: `getLockFileMode` maps the three booleans (useRegistries,
recreateLockFile, saveLockFile) to exactly one of five modes per the fixed
table: useRegistries=false gives AllPure regardless of the other two;
(true,true,true) gives RecreateLockFile; (true,true,false) gives
UseNewLockFile; (true,false,true) gives UpdateLockFile; (true,false,false)
gives UseUpdatedLockFile. -/
theorem getLockFileMode_table :
    (∀ r s, getLockFileMode false r s = .AllPure) ∧
    getLockFileMode true true true = .RecreateLockFile ∧
    getLockFileMode true true false = .UseNewLockFile ∧
    getLockFileMode true false true = .UpdateLockFile ∧
    getLockFileMode true false false = .UseUpdatedLockFile :=
  ⟨fun _ _ => rfl, rfl, rfl, rfl, rfl⟩

/-! ## C8 -/

/-- C8: the GC-root symlink name is the flake reference's string form with
the replacements `%`→`%25`, `/`→`%2f`, `:`→`%3a` applied in that order; in
particular the reference string "github:owner/repo" yields the trailing
symlink name "github%3aowner%2frepo" (also checked on a string containing
all three replaced characters, and on the GC-root builder itself). -/
theorem gcroot_symlink_encoding :
    (∀ s, encodeRefName s =
      replaceStrings
        (replaceStrings (replaceStrings s '%' "%25".toList) '/' "%2f".toList)
        ':' "%3a".toList) ∧
    encodeRefName "github:owner/repo".toList = "github%3aowner%2frepo".toList ∧
    encodeRefName "a%b/c:d".toList = "a%25b%2fc%3ad".toList ∧
    makeFlakeClosureGCRoot (fun _ => true)
      { data := .other "github", str := "github:owner/repo".toList }
      { sourcePath := "/nix/store/src", lockFile := [] } =
      .rootWritten ["/nix/store/src"] "github%3aowner%2frepo".toList := by
  refine ⟨fun s => rfl, by decide, by decide, ?_⟩
  simp [makeFlakeClosureGCRoot, closureLoop, insertPath]
  decide

/-! ## C5 -/

/-- C5: for every input string beginning with "(" (legacy file mode
inactive), the parser produces an ExpressionInstallable whose what() returns
the string itself — never a flake or store-path installable — regardless of
whether the rest of the string also matches flake-reference or path
syntax. -/
theorem parse_paren_expression (env : ParserEnv) (s : List Char)
    (h : s.take 1 = ['(']) :
    parseOne env s = .ok (.expr s) ∧ (Inst.expr s).what = s := by
  refine ⟨?_, rfl⟩
  simp [parseOne, h]

/-- Witness for C5 at the concrete input "(1+1)". -/
theorem parse_paren_expression_witness :
    parseOne ⟨fun _ => .badFlakeRef, fun _ => none, [], []⟩ "(1+1)".toList
        = .ok (.expr "(1+1)".toList) ∧
      (Inst.expr "(1+1)".toList).what = "(1+1)".toList :=
  parse_paren_expression ⟨fun _ => .badFlakeRef, fun _ => none, [], []⟩
    "(1+1)".toList (by decide)

/-! ## C9 -/

/-- C9 counterexample: the claim says the cardinality error is "surfaced
with the count", but `toStorePath` raises the same error value for an
installable flattening to two paths as for one flattening to three — the
count is not part of the error.  (Buildables here are output-only, drvPath
empty, as for store-path installables.) -/
theorem toStorePath_count_not_surfaced :
    toStorePath "two" [Buildable.mk "" [("a", "/p1"), ("b", "/p2")]]
      = .error (.notOneStorePath "two") ∧
    toStorePath "three" [Buildable.mk "" [("a", "/p1"), ("b", "/p2"), ("c", "/p3")]]
      = .error (.notOneStorePath "three") ∧
    (toStorePathsB [Buildable.mk "" [("a", "/p1"), ("b", "/p2")]]).length = 2 ∧
    (toStorePathsB [Buildable.mk "" [("a", "/p1"), ("b", "/p2"), ("c", "/p3")]]).length = 3 ∧
    Except.error (StorePathError.notOneStorePath "two")
      ≠ (.ok "/p1" : Except StorePathError String) := by
  decide

/-- C9 (amended): `toStorePath`, given an installable whose buildables
flatten to a set of output store paths of size different from one, fails
with a cardinality error naming the installable (the count is not included
in the error); given exactly one store path, it returns that path. -/
theorem toStorePath_cardinality (whatStr : String) (bs : List Buildable) :
    ((toStorePathsB bs).length ≠ 1 →
      toStorePath whatStr bs = .error (.notOneStorePath whatStr)) ∧
    (∀ p, toStorePathsB bs = [p] → toStorePath whatStr bs = .ok p) := by
  constructor
  · intro h
    simp [toStorePath, h]
  · intro p hp
    simp [toStorePath, hp]

/-- Witness for C9 at a concrete single-output installable. -/
theorem toStorePath_cardinality_witness :
    toStorePath "one" [Buildable.mk "" [("out", "/p")]] = .ok "/p" :=
  (toStorePath_cardinality "one"
    [Buildable.mk "" [("out", "/p")]]).2 "/p" (by decide)

/-! ## C6 -/

/-- C6: when parsing an installable string (legacy file mode off, string
not starting with "(" or "nixpkgs."): a MissingFlake failure ("syntactically
valid reference to a non-flake local path") is remembered and parsing falls
through without aborting, a BadFlakeRef failure ("not a valid reference at
all") falls through silently — both reach the colon branch and the
store-path branch unchanged — and if the string then contains no ":" and
does not resolve to a store path, the remembered MissingFlake error is
raised if it exists, otherwise "unsupported argument" is raised. -/
theorem parse_error_fallthrough (env : ParserEnv) (s : List Char)
    (h1 : s.take 1 ≠ ['(']) (h2 : s.take 8 ≠ "nixpkgs.".toList)
    (h3 : env.parseFlakeRef s ≠ .ok) :
    (∀ l r, rsplitColon s = some (l, r) → env.parseFlakeRef l = .ok →
      parseOne env s = .ok (.flake l [r] env.defaultPathPres)) ∧
    (∀ p, rsplitColon s = none → '/' ∈ s → env.follow s = some p →
      parseOne env s = .ok (.storePath p)) ∧
    (rsplitColon s = none → (if '/' ∈ s then env.follow s else none) = none →
      ((env.parseFlakeRef s = .missingFlake →
         parseOne env s = .error (.missingFlakeErr s)) ∧
       (env.parseFlakeRef s = .badFlakeRef →
         parseOne env s = .error (.unsupportedArgument s)))) := by
  rcases hfr : env.parseFlakeRef s with _ | _ | _
  · exact absurd hfr h3
  · refine ⟨?_, ?_, ?_⟩
    · intro l r hsplit hl
      unfold parseOne
      rw [if_neg h1, if_neg h2, hfr, hsplit]
      dsimp only
      rw [hl]
    · intro p hsplit hsl hfol
      unfold parseOne
      rw [if_neg h1, if_neg h2, hfr, hsplit, if_pos hsl, hfol]
    · intro hsplit hfol
      refine ⟨fun _ => ?_, fun hbad => absurd hbad (by decide)⟩
      unfold parseOne
      rw [if_neg h1, if_neg h2, hfr, hsplit, hfol]
      rfl
  · refine ⟨?_, ?_, ?_⟩
    · intro l r hsplit hl
      unfold parseOne
      rw [if_neg h1, if_neg h2, hfr, hsplit]
      dsimp only
      rw [hl]
    · intro p hsplit hsl hfol
      unfold parseOne
      rw [if_neg h1, if_neg h2, hfr, hsplit, if_pos hsl, hfol]
    · intro hsplit hfol
      refine ⟨fun hmis => absurd hmis (by decide), fun _ => ?_⟩
      unfold parseOne
      rw [if_neg h1, if_neg h2, hfr, hsplit, hfol]
      rfl

/-- Witness for C6: a string with no colon and no slash whose reference
parse fails with MissingFlake raises the remembered error; with BadFlakeRef
it raises "unsupported argument". -/
theorem parse_error_fallthrough_witness :
    parseOne ⟨fun _ => .missingFlake, fun _ => none, [], []⟩ "abc".toList
        = .error (.missingFlakeErr "abc".toList) ∧
    parseOne ⟨fun _ => .badFlakeRef, fun _ => none, [], []⟩ "abc".toList
        = .error (.unsupportedArgument "abc".toList) := by
  constructor
  · exact ((parse_error_fallthrough ⟨fun _ => .missingFlake, fun _ => none, [], []⟩
      "abc".toList (by decide) (by decide) (by decide)).2.2
      (by decide) (by decide)).1 rfl
  · exact ((parse_error_fallthrough ⟨fun _ => .badFlakeRef, fun _ => none, [], []⟩
      "abc".toList (by decide) (by decide) (by decide)).2.2
      (by decide) (by decide)).2 rfl

/-! ## C2 -/

theorem tdGo_absent (env : FlakeEnv) :
    ∀ (l : List String) (ev : Bool),
    (∀ ap ∈ l, env.attrLookup ap = none) →
    (tdGo env ev [] l).1 = .error .notProvided := by
  intro l
  induction l with
  | nil => intro ev _; rfl
  | cons ap rest ih =>
    intro ev h
    have hap : env.attrLookup ap = none := h ap (by simp)
    have hrest : ∀ p ∈ rest, env.attrLookup p = none :=
      fun p hp => h p (by simp [hp])
    simp only [tdGo, cacheLookup, hap]
    exact ih true hrest

theorem tdGo_first_found (env : FlakeEnv) :
    ∀ (l1 : List String) (ev : Bool) (ap : String) (l2 : List String)
      (d : Derivation),
    (∀ p ∈ l1, env.attrLookup p = none) →
    env.attrLookup ap = some (some d) →
    (tdGo env ev [] (l1 ++ ap :: l2)).1 = .ok d := by
  intro l1
  induction l1 with
  | nil =>
    intro ev ap l2 d _ hap
    simp only [List.nil_append, tdGo, cacheLookup, hap]
  | cons p ps ih =>
    intro ev ap l2 d h hap
    have hp : env.attrLookup p = none := h p (by simp)
    have hps : ∀ q ∈ ps, env.attrLookup q = none :=
      fun q hq => h q (by simp [hq])
    simp only [List.cons_append, tdGo, cacheLookup, hp]
    exact ih true ap l2 d hps hap

/-- C2: within a FlakeInstallable, candidate attribute paths are tried
strictly in order — each path prefix combined with the (first) attribute
path, before the literal attribute paths — and the first candidate denoting
an existing attribute wins (here instantiated at the first candidate that is
a derivation, with all earlier candidates absent); an absent attribute
drives fallthrough to the next candidate, and if every candidate is absent,
resolution fails with the "flake does not provide attribute" error.
(Resolution starts from an empty eval cache.) -/
theorem flake_candidate_order (env : FlakeEnv)
    (pathPres attrPaths : List String) :
    getActualAttrPaths pathPres attrPaths =
      pathPres.map (fun p => p ++ attrPaths.headD "") ++ attrPaths ∧
    ((∀ ap ∈ getActualAttrPaths pathPres attrPaths, env.attrLookup ap = none) →
      (flakeToDerivations env [] pathPres attrPaths).1 = .error .notProvided) ∧
    (∀ l1 ap l2 d, getActualAttrPaths pathPres attrPaths = l1 ++ ap :: l2 →
      (∀ p ∈ l1, env.attrLookup p = none) →
      env.attrLookup ap = some (some d) →
      (flakeToDerivations env [] pathPres attrPaths).1 = .ok d) := by
  refine ⟨rfl, ?_, ?_⟩
  · intro h
    exact tdGo_absent env _ false h
  · intro l1 ap l2 d hsplit h1 hap
    unfold flakeToDerivations
    rw [hsplit]
    exact tdGo_first_found env l1 false ap l2 d h1 hap

/-- Witness for C2: with prefixes ["packages."] and attribute paths
["hello", "defaultPackage"], the candidates are
["packages.hello", "hello", "defaultPackage"]; when "packages.hello" is
absent and "hello" is a derivation, the second candidate wins. -/
theorem flake_candidate_order_witness :
    (flakeToDerivations
      ⟨"fp",
       fun ap => if ap = "hello" then some (some ⟨"/drv", "/out", "out"⟩) else none,
       fun _ => true⟩
      [] ["packages."] ["hello", "defaultPackage"]).1
      = .ok ⟨"/drv", "/out", "out"⟩ :=
  (flake_candidate_order
    ⟨"fp",
     fun ap => if ap = "hello" then some (some ⟨"/drv", "/out", "out"⟩) else none,
     fun _ => true⟩
    ["packages."] ["hello", "defaultPackage"]).2.2
    ["packages.hello"] "hello" ["defaultPackage"] ⟨"/drv", "/out", "out"⟩
    (by decide) (by decide) (by decide)

/-! ## C1 -/

theorem cacheLookup_single_eq (fp ap : String) (d : Derivation) :
    cacheLookup (cacheInsert [] fp ap d) fp ap = some d := by
  simp [cacheLookup, cacheInsert]

theorem cacheLookup_single_ne (fp ap ap2 : String) (d : Derivation)
    (h : ap2 ≠ ap) :
    cacheLookup (cacheInsert [] fp ap2 d) fp ap = none := by
  simp [cacheLookup, cacheInsert, h]

/-- A successful run of the candidate loop from an empty cache records
exactly one entry: the winning attribute path (which evaluates to the
returned derivation) under the flake's fingerprint. -/
theorem tdGo_ok_cache (env : FlakeEnv) :
    ∀ (l : List String) (ev : Bool) (d : Derivation) (c1 : Cache) (n : Nat),
    tdGo env ev [] l = (.ok d, c1, n) →
    ∃ ap, env.attrLookup ap = some (some d) ∧
      c1 = cacheInsert [] env.fingerprint ap d := by
  intro l
  induction l with
  | nil =>
    intro ev d c1 n h
    simp [tdGo] at h
  | cons ap rest ih =>
    intro ev d c1 n h
    rcases hat : env.attrLookup ap with _ | od
    · rcases hE : tdGo env true [] rest with ⟨ra, rb, rc⟩
      simp only [tdGo, cacheLookup, hat, hE, Prod.mk.injEq] at h
      obtain ⟨hr1, hr2, _⟩ := h
      rw [hr1, hr2] at hE
      exact ih true d c1 rc hE
    · rcases od with _ | d0
      · simp [tdGo, cacheLookup, hat] at h
      · simp only [tdGo, cacheLookup, hat, Prod.mk.injEq] at h
        obtain ⟨hr1, hr2, _⟩ := h
        rw [Except.ok.injEq] at hr1
        subst hr1
        exact ⟨ap, hat, hr2.symm⟩

/-- Re-running the candidate loop against the cache produced by a successful
first run (same fingerprint) returns the same derivation without modifying
the cache, provided the recorded derivation path is still valid; when the
valid hit is at the first candidate, the flake's outputs are not evaluated
at all. -/
theorem tdGo_rerun (env : FlakeEnv) :
    ∀ (l : List String) (ev : Bool) (d : Derivation) (c1 : Cache) (n1 : Nat),
    tdGo env ev [] l = (.ok d, c1, n1) →
    env.isValidPath d.drvPath = true →
    ∃ n2, tdGo env ev c1 l = (.ok d, c1, n2) ∧
      (∀ ap rest, l = ap :: rest →
        cacheLookup c1 env.fingerprint ap = some d → n2 = 0) := by
  intro l
  induction l with
  | nil =>
    intro ev d c1 n1 h hv
    simp [tdGo] at h
  | cons ap rest ih =>
    intro ev d c1 n1 h hv
    rcases hat : env.attrLookup ap with _ | od
    · rcases hE : tdGo env true [] rest with ⟨ra, rb, rc⟩
      simp only [tdGo, cacheLookup, hat, hE, Prod.mk.injEq] at h
      obtain ⟨hr1, hr2, _⟩ := h
      rw [hr1, hr2] at hE
      obtain ⟨n2r, hrun2, _⟩ := ih true d c1 rc hE hv
      obtain ⟨ap2, hap2, hc1⟩ := tdGo_ok_cache env rest true d c1 rc hE
      have hne : ap2 ≠ ap := by
        intro e
        rw [e, hat] at hap2
        exact Option.noConfusion hap2
      have hlookc1 : cacheLookup c1 env.fingerprint ap = none := by
        rw [hc1]
        exact cacheLookup_single_ne _ _ _ _ hne
      refine ⟨n2r + (if ev then 0 else 1), ?_, ?_⟩
      · simp only [tdGo, hlookc1, hat, hrun2]
      · intro ap3 rest3 he hl
        rw [List.cons.injEq] at he
        rw [← he.1, hlookc1] at hl
        exact Option.noConfusion hl
    · rcases od with _ | d0
      · simp [tdGo, cacheLookup, hat] at h
      · simp only [tdGo, cacheLookup, hat, Prod.mk.injEq] at h
        obtain ⟨hr1, hr2, _⟩ := h
        rw [Except.ok.injEq] at hr1
        subst hr1
        rw [← hr2]
        refine ⟨0, ?_, fun _ _ _ _ => rfl⟩
        simp only [tdGo, cacheLookup_single_eq, hv]
        rfl

/-- C1 (amended): resolving the same FlakeInstallable a second time against
an unchanged lock state (same fingerprint) yields the identical derivation
record via an Eval Cache hit, leaving the cache unchanged; the flake's
outputs are not evaluated a second time when the cache hit occurs at the
first candidate attribute path (earlier cache-miss candidates trigger one
re-evaluation otherwise); a cache hit is returned only after re-validating
that the recorded derivation path is still a valid store path, and a stale
hit falls through to fresh evaluation, which repopulates the cache. -/
theorem flake_resolution_idempotent (env : FlakeEnv)
    (pathPres attrPaths : List String) (d : Derivation) (c1 : Cache) (n1 : Nat)
    (h1 : flakeToDerivations env [] pathPres attrPaths = (.ok d, c1, n1))
    (hv : env.isValidPath d.drvPath = true) :
    (∃ n2, flakeToDerivations env c1 pathPres attrPaths = (.ok d, c1, n2) ∧
      (∀ ap rest, getActualAttrPaths pathPres attrPaths = ap :: rest →
        cacheLookup c1 env.fingerprint ap = some d → n2 = 0)) ∧
    (∀ (cache : Cache) (ev : Bool) (ap : String) (rest : List String)
       (d0 d1 : Derivation),
      cacheLookup cache env.fingerprint ap = some d0 →
      env.isValidPath d0.drvPath = false →
      env.attrLookup ap = some (some d1) →
      tdGo env ev cache (ap :: rest) =
        (.ok d1, cacheInsert cache env.fingerprint ap d1,
          if ev then 0 else 1)) := by
  constructor
  · exact tdGo_rerun env _ false d c1 n1 h1 hv
  · intro cache ev ap rest d0 d1 hlook hstale hat
    simp only [tdGo, hlook, hstale, hat]
    rfl

/-- Witness for C1: a single candidate "a" resolving to a derivation; the
first run evaluates once and caches, the second run is a pure cache hit with
zero evaluations. -/
theorem flake_resolution_idempotent_witness :
    flakeToDerivations
      ⟨"fp", fun ap => if ap = "a" then some (some ⟨"/drv", "/out", "out"⟩) else none,
       fun _ => true⟩ [] [] ["a"]
      = (.ok ⟨"/drv", "/out", "out"⟩, [(("fp", "a"), ⟨"/drv", "/out", "out"⟩)], 1) ∧
    ∃ n2, flakeToDerivations
      ⟨"fp", fun ap => if ap = "a" then some (some ⟨"/drv", "/out", "out"⟩) else none,
       fun _ => true⟩ [(("fp", "a"), ⟨"/drv", "/out", "out"⟩)] [] ["a"]
      = (.ok ⟨"/drv", "/out", "out"⟩, [(("fp", "a"), ⟨"/drv", "/out", "out"⟩)], n2) ∧
      n2 = 0 := by
  refine ⟨by decide, ?_⟩
  obtain ⟨n2, hr, hh⟩ := (flake_resolution_idempotent
    ⟨"fp", fun ap => if ap = "a" then some (some ⟨"/drv", "/out", "out"⟩) else none,
     fun _ => true⟩ [] ["a"] ⟨"/drv", "/out", "out"⟩
    [(("fp", "a"), ⟨"/drv", "/out", "out"⟩)] 1 (by decide) (by decide)).1
  exact ⟨n2, hr, hh "a" [] (by decide) (by decide)⟩

/-- C1 counterexample to the claim as stated: with candidates ["a", "b"]
where "a" is absent and "b" is a derivation, the first run evaluates the
outputs once and caches the result under "b"; the second run misses the
cache at "a", so it evaluates the flake's outputs again (count 1, not 0)
before returning the identical derivation via the cache hit at "b". -/
theorem flake_resolution_second_eval_cex :
    flakeToDerivations
      ⟨"fp", fun ap => if ap = "b" then some (some ⟨"/drv", "/out", "out"⟩) else none,
       fun _ => true⟩ [] [] ["a", "b"]
      = (.ok ⟨"/drv", "/out", "out"⟩, [(("fp", "b"), ⟨"/drv", "/out", "out"⟩)], 1) ∧
    flakeToDerivations
      ⟨"fp", fun ap => if ap = "b" then some (some ⟨"/drv", "/out", "out"⟩) else none,
       fun _ => true⟩ [(("fp", "b"), ⟨"/drv", "/out", "out"⟩)] [] ["a", "b"]
      = (.ok ⟨"/drv", "/out", "out"⟩, [(("fp", "b"), ⟨"/drv", "/out", "out"⟩)], 1) ∧
    (1 : Nat) ≠ 0 := by
  decide

/-! ## C3 -/

theorem foldl_insertPath_mem :
    ∀ (l acc : List String) (p : String),
    p ∈ l.foldl insertPath acc ↔ p ∈ acc ∨ p ∈ l := by
  intro l
  induction l with
  | nil => simp
  | cons x xs ih =>
    intro acc p
    rw [List.foldl_cons, ih, mem_insertPath]
    constructor
    · rintro ((rfl | h) | h)
      · exact Or.inr (by simp)
      · exact Or.inl h
      · exact Or.inr (by simp [h])
    · rintro (h | h)
      · exact Or.inl (Or.inr h)
      · rcases List.mem_cons.mp h with rfl | h2
        · exact Or.inl (Or.inl rfl)
        · exact Or.inr h2

theorem foldl_insertPath_const (D : String) :
    ∀ (l : List String), (∀ x ∈ l, x = D) →
    l.foldl insertPath [D] = [D] := by
  intro l
  induction l with
  | nil => intro _; rfl
  | cons x xs ih =>
    intro h
    have hx : x = D := h x (by simp)
    subst hx
    rw [List.foldl_cons, show insertPath [x] x = [x] by simp [insertPath]]
    exact ih (fun y hy => h y (by simp [hy]))

theorem mkBuildables_ok :
    ∀ (drvs : List Derivation), (∀ d ∈ drvs, d.outputName ≠ "") →
    mkBuildables drvs = .ok (drvs.map (fun d =>
      Buildable.mk d.drvPath [(d.outputName, d.outPath)])) := by
  intro drvs
  induction drvs with
  | nil => intro _; rfl
  | cons d ds ih =>
    intro h
    have hd : d.outputName ≠ "" := h d (by simp)
    rw [mkBuildables, if_neg hd, ih (fun x hx => h x (by simp [hx]))]
    rfl

theorem mapLookup_single (k v q : String) :
    mapLookup [(k, v)] q = if k = q then some v else none := by
  simp [mapLookup]

theorem mapLookup_append (m m2 : List (String × String)) (q : String) :
    mapLookup (m ++ m2) q =
      match mapLookup m q with
      | some w => some w
      | none => mapLookup m2 q := by
  induction m with
  | nil => rfl
  | cons e rest ih =>
    by_cases he : e.1 = q
    · simp [mapLookup, he]
    · simp [mapLookup, he, ih]

theorem mapLookup_mapInsert (m : List (String × String)) (k v q : String) :
    mapLookup (mapInsert m k v) q =
      match mapLookup m q with
      | some w => some w
      | none => if k = q then some v else none := by
  unfold mapInsert
  rcases hk : mapLookup m k with _ | w
  · rw [mapLookup_append, mapLookup_single]
  · rcases hq : mapLookup m q with _ | w2
    · by_cases hkq : k = q
      · subst hkq
        rw [hk] at hq
        exact Option.noConfusion hq
      · simp [hq, hkq]
    · simp [hq]

theorem mapLookup_mergeFold :
    ∀ (drvs : List Derivation) (acc : List (String × String)) (q : String),
    mapLookup (drvs.foldl (fun a d => mapInsert a d.outputName d.outPath) acc) q
      = (match mapLookup acc q with
         | some w => some w
         | none => (drvs.find? (fun d => d.outputName == q)).map
             (fun d => d.outPath)) := by
  intro drvs
  induction drvs with
  | nil =>
    intro acc q
    rcases h : mapLookup acc q <;> simp [h]
  | cons d ds ih =>
    intro acc q
    rw [List.foldl_cons, ih, mapLookup_mapInsert]
    rcases hacc : mapLookup acc q with _ | w
    · by_cases hkq : d.outputName = q
      · simp [List.find?_cons, hkq]
      · simp only [List.find?_cons]
        rw [show (d.outputName == q) = false by simp [hkq]]
        simp [hkq]
    · rfl

theorem buildablesFold :
    ∀ (drvs : List Derivation) (acc : List (String × String)),
    (drvs.map (fun d =>
        Buildable.mk d.drvPath [(d.outputName, d.outPath)])).foldl
      (fun acc b => b.outputs.foldl (fun a e => mapInsert a e.1 e.2) acc) acc
      = drvs.foldl (fun a d => mapInsert a d.outputName d.outPath) acc := by
  intro drvs
  induction drvs with
  | nil => intro acc; rfl
  | cons d ds ih =>
    intro acc
    simp only [List.map_cons, List.foldl_cons, List.foldl_nil]
    exact ih _

/-- C3: whenever `toBuildables` produces multiple Buildables that all share
the same non-empty derivation path, they are merged into a single Buildable
whose output mapping is the union of the individual output mappings (lookup
of any output name yields the first matching record's output path); whenever
the Buildables have two or more distinct derivation paths, no merge occurs
and they are returned unchanged in order. -/
theorem toBuildables_merge (drvs : List Derivation) (D : String)
    (hname : ∀ d ∈ drvs, d.outputName ≠ "") :
    ((drvs ≠ [] → D ≠ "" → (∀ d ∈ drvs, d.drvPath = D) →
       (toBuildables drvs = .ok [Buildable.mk D
          (drvs.foldl (fun a d => mapInsert a d.outputName d.outPath) [])] ∧
        ∀ q, mapLookup
            (drvs.foldl (fun a d => mapInsert a d.outputName d.outPath) []) q
          = (drvs.find? (fun d => d.outputName == q)).map
              (fun d => d.outPath))) ∧
     (∀ D1 ∈ drvs.map (fun d => d.drvPath),
      ∀ D2 ∈ drvs.map (fun d => d.drvPath), D1 ≠ D2 →
       toBuildables drvs = .ok (drvs.map (fun d =>
         Buildable.mk d.drvPath [(d.outputName, d.outPath)])))) := by
  have hmk := mkBuildables_ok drvs hname
  constructor
  · intro hne hD hall
    have hset : (drvs.map (fun d => d.drvPath)).foldl insertPath [] = [D] := by
      rcases drvs with _ | ⟨d0, ds⟩
      · exact absurd rfl hne
      · have h0 : d0.drvPath = D := hall d0 (by simp)
        simp only [List.map_cons, List.foldl_cons, h0]
        rw [show insertPath [] D = [D] from rfl]
        exact foldl_insertPath_const D _
          (by
            intro x hx
            obtain ⟨d, hd, rfl⟩ := List.mem_map.mp hx
            exact hall d (by simp [hd]))
    constructor
    · unfold toBuildables
      rw [hmk]
      simp only [hset, List.length_singleton, List.headD, if_true,
        eq_self_iff_true]
      rw [buildablesFold]
    · intro q
      rw [mapLookup_mergeFold]
      rfl
  · intro D1 h1 D2 h2 hne12
    have hlen : ¬ ((drvs.map (fun d => d.drvPath)).foldl insertPath []).length = 1 := by
      intro hl
      obtain ⟨x, hx⟩ := List.length_eq_one.mp hl
      have m1 : D1 ∈ (drvs.map (fun d => d.drvPath)).foldl insertPath [] :=
        (foldl_insertPath_mem _ _ _).mpr (Or.inr h1)
      have m2 : D2 ∈ (drvs.map (fun d => d.drvPath)).foldl insertPath [] :=
        (foldl_insertPath_mem _ _ _).mpr (Or.inr h2)
      rw [hx] at m1 m2
      rcases List.mem_singleton.mp m1 with rfl
      rcases List.mem_singleton.mp m2 with rfl
      exact hne12 rfl
    unfold toBuildables
    rw [hmk]
    simp only [if_neg hlen]

/-- Witness for C3: two records sharing derivation path "D" with outputs
a→X and b→Y merge into one Buildable carrying both outputs. -/
theorem toBuildables_merge_witness :
    toBuildables [Derivation.mk "D" "X" "a", Derivation.mk "D" "Y" "b"]
      = .ok [Buildable.mk "D" [("a", "X"), ("b", "Y")]] := by
  have h := ((toBuildables_merge
    [Derivation.mk "D" "X" "a", Derivation.mk "D" "Y" "b"] "D"
    (by decide)).1 (by decide) (by decide) (by decide)).1
  rw [h]
  decide

/-! ## C7 and C10 -/

theorem closureLoop_nil (valid : String → Bool) (acc : List String) :
    closureLoop valid [] acc = (acc, 0) := by
  rw [closureLoop]

theorem closureLoop_cons (valid : String → Bool)
    (deps : List (String × LIn)) (qrest : List (List (String × LIn)))
    (acc : List String) :
    closureLoop valid (deps :: qrest) acc =
      ((closureLoop valid (qrest ++ deps.map (fun d => d.2.inputs))
          (deps.foldl
            (fun a d => if valid d.2.path then insertPath a d.2.path else a)
            acc)).1,
       (closureLoop valid (qrest ++ deps.map (fun d => d.2.inputs))
          (deps.foldl
            (fun a d => if valid d.2.path then insertPath a d.2.path else a)
            acc)).2 + deps.length) := by
  rw [closureLoop]

theorem sizeL_children :
    ∀ l : List (String × LIn),
    (l.map (fun d => sizeL d.2.inputs)).sum + l.length = sizeL l := by
  intro l
  induction l with
  | nil => simp [sizeL]
  | cons x xs ih =>
    rcases x with ⟨n, p, is⟩
    have e1 : ((n, LIn.node p is) : String × LIn).2.inputs = is := rfl
    simp only [List.map_cons, List.sum_cons, List.length_cons, e1, sizeL]
    omega

theorem mem_allPathsL :
    ∀ (deps : List (String × LIn)) (p : String),
    p ∈ allPathsL deps ↔
      ∃ d ∈ deps, p = d.2.path ∨ p ∈ allPathsL d.2.inputs := by
  intro deps
  induction deps with
  | nil => simp [allPathsL]
  | cons x xs ih =>
    intro p
    rcases x with ⟨n, pp, is⟩
    have e1 : ((n, LIn.node pp is) : String × LIn).2.path = pp := rfl
    have e2 : ((n, LIn.node pp is) : String × LIn).2.inputs = is := rfl
    simp only [allPathsL, List.mem_append, List.mem_cons, ih]
    constructor
    · rintro ((he | h) | ⟨d, hd, hcase⟩)
      · exact ⟨(n, LIn.node pp is), by simp, Or.inl (by rw [e1]; exact he)⟩
      · exact ⟨(n, LIn.node pp is), by simp, Or.inr (by rw [e2]; exact h)⟩
      · exact ⟨d, Or.inr hd, hcase⟩
    · rintro ⟨d, (rfl | hd), hcase⟩
      · rw [e1, e2] at hcase
        rcases hcase with rfl | h
        · exact Or.inl (Or.inl rfl)
        · exact Or.inl (Or.inr h)
      · exact Or.inr ⟨d, hd, hcase⟩

theorem closureFold_mem (valid : String → Bool) :
    ∀ (deps : List (String × LIn)) (acc : List String) (p : String),
    p ∈ deps.foldl
        (fun a d => if valid d.2.path then insertPath a d.2.path else a) acc ↔
      p ∈ acc ∨ ∃ d ∈ deps, p = d.2.path ∧ valid p = true := by
  intro deps
  induction deps with
  | nil => simp
  | cons d ds ih =>
    intro acc p
    rw [List.foldl_cons, ih]
    by_cases hv : valid d.2.path = true
    · rw [if_pos hv, mem_insertPath]
      constructor
      · rintro ((rfl | h) | h)
        · exact Or.inr ⟨d, by simp, rfl, hv⟩
        · exact Or.inl h
        · obtain ⟨d2, hd2, he, hvp⟩ := h
          exact Or.inr ⟨d2, by simp [hd2], he, hvp⟩
      · rintro (h | ⟨d2, hd2, rfl, hvp⟩)
        · exact Or.inl (Or.inr h)
        · rcases List.mem_cons.mp hd2 with rfl | h2
          · exact Or.inl (Or.inl rfl)
          · exact Or.inr ⟨d2, h2, rfl, hvp⟩
    · rw [if_neg hv]
      constructor
      · rintro (h | ⟨d2, hd2, he, hvp⟩)
        · exact Or.inl h
        · exact Or.inr ⟨d2, by simp [hd2], he, hvp⟩
      · rintro (h | ⟨d2, hd2, rfl, hvp⟩)
        · exact Or.inl h
        · rcases List.mem_cons.mp hd2 with rfl | h2
          · exact absurd hvp hv
          · exact Or.inr ⟨d2, h2, rfl, hvp⟩

theorem closureLoop_mem_aux (valid : String → Bool) :
    ∀ (n : Nat) (q : List (List (String × LIn))) (acc : List String),
    2 * (q.map sizeL).sum + q.length ≤ n →
    ∀ p, p ∈ (closureLoop valid q acc).1 ↔
      p ∈ acc ∨ ∃ deps ∈ q, p ∈ allPathsL deps ∧ valid p = true := by
  intro n
  induction n with
  | zero =>
    intro q acc hle p
    rcases q with _ | ⟨deps, qrest⟩
    · simp [closureLoop_nil]
    · simp at hle
  | succ n ih =>
    intro q acc hle p
    rcases q with _ | ⟨deps, qrest⟩
    · simp [closureLoop_nil]
    · have hkey := sizeL_children deps
      have hnew : 2 * ((qrest ++ deps.map (fun d => d.2.inputs)).map sizeL).sum
          + (qrest ++ deps.map (fun d => d.2.inputs)).length ≤ n := by
        simp only [List.map_append, List.sum_append, List.length_append,
          List.map_map, List.length_map, Function.comp_def] at hle ⊢
        simp only [List.map_cons, List.sum_cons, List.length_cons] at hle
        omega
      rw [closureLoop_cons]
      rw [ih _ _ hnew p, closureFold_mem]
      constructor
      · rintro ((h | ⟨d, hd, rfl, hvp⟩) | ⟨deps2, hdeps2, hmem, hvp⟩)
        · exact Or.inl h
        · refine Or.inr ⟨deps, by simp, ?_, hvp⟩
          rw [mem_allPathsL]
          exact ⟨d, hd, Or.inl rfl⟩
        · rcases List.mem_append.mp hdeps2 with h2 | h2
          · exact Or.inr ⟨deps2, by simp [h2], hmem, hvp⟩
          · obtain ⟨d, hd, rfl⟩ := List.mem_map.mp h2
            refine Or.inr ⟨deps, by simp, ?_, hvp⟩
            rw [mem_allPathsL]
            exact ⟨d, hd, Or.inr hmem⟩
      · rintro (h | ⟨deps2, hdeps2, hmem, hvp⟩)
        · exact Or.inl (Or.inl h)
        · rcases List.mem_cons.mp hdeps2 with rfl | h2
          · rw [mem_allPathsL] at hmem
            obtain ⟨d, hd, hcase⟩ := hmem
            rcases hcase with rfl | hsub
            · exact Or.inl (Or.inr ⟨d, hd, rfl, hvp⟩)
            · exact Or.inr ⟨d.2.inputs,
                List.mem_append.mpr (Or.inr (List.mem_map.mpr ⟨d, hd, rfl⟩)),
                hsub, hvp⟩
          · exact Or.inr ⟨deps2, List.mem_append.mpr (Or.inl h2), hmem, hvp⟩

theorem closureLoop_count_aux (valid : String → Bool) :
    ∀ (n : Nat) (q : List (List (String × LIn))) (acc : List String),
    2 * (q.map sizeL).sum + q.length ≤ n →
    (closureLoop valid q acc).2 = (q.map sizeL).sum := by
  intro n
  induction n with
  | zero =>
    intro q acc hle
    rcases q with _ | ⟨deps, qrest⟩
    · simp [closureLoop_nil]
    · simp at hle
  | succ n ih =>
    intro q acc hle
    rcases q with _ | ⟨deps, qrest⟩
    · simp [closureLoop_nil]
    · have hkey := sizeL_children deps
      have hnew : 2 * ((qrest ++ deps.map (fun d => d.2.inputs)).map sizeL).sum
          + (qrest ++ deps.map (fun d => d.2.inputs)).length ≤ n := by
        simp only [List.map_append, List.sum_append, List.length_append,
          List.map_map, List.length_map, Function.comp_def] at hle ⊢
        simp only [List.map_cons, List.sum_cons, List.length_cons] at hle
        omega
      rw [closureLoop_cons]
      dsimp only
      rw [ih _ _ hnew]
      simp only [List.map_append, List.sum_append, List.map_cons,
        List.sum_cons, List.map_map, Function.comp_def]
      omega

/-- Membership in the closure computed for a resolved flake: exactly the
flake's own source path plus every valid dependency path of the lock
graph. -/
theorem closure_set_mem (valid : String → Bool) (res : ResolvedFlake)
    (p : String) :
    p ∈ (closureLoop valid [res.lockFile]
        (insertPath [] res.sourcePath)).1 ↔
      p = res.sourcePath ∨
        (p ∈ allPathsL res.lockFile ∧ valid p = true) := by
  rw [closureLoop_mem_aux valid (2 * sizeL res.lockFile + 1) [res.lockFile]
    _ (by simp) p]
  constructor
  · rintro (h | ⟨deps, hdeps, hmem2, hvp⟩)
    · rcases (mem_insertPath [] res.sourcePath p).mp h with rfl | h2
      · exact Or.inl rfl
      · exact absurd h2 (List.not_mem_nil p)
    · rcases List.mem_singleton.mp hdeps with rfl
      exact Or.inr ⟨hmem2, hvp⟩
  · rintro (rfl | ⟨hmem2, hvp⟩)
    · exact Or.inl ((mem_insertPath [] _ _).mpr (Or.inl rfl))
    · exact Or.inr ⟨res.lockFile, by simp, hmem2, hvp⟩

/-- For a non-local reference with a valid source path, the GC-root builder
writes the root over the computed closure. -/
theorem gcroot_other_eq (valid : String → Bool) (t : String) (s : List Char)
    (res : ResolvedFlake) (hv : valid res.sourcePath = true) :
    makeFlakeClosureGCRoot valid ⟨.other t, s⟩ res =
      .rootWritten
        (closureLoop valid [res.lockFile] (insertPath [] res.sourcePath)).1
        (encodeRefName s) := by
  have hsrc : res.sourcePath ∈ (closureLoop valid [res.lockFile]
      (insertPath [] res.sourcePath)).1 :=
    (closure_set_mem valid res res.sourcePath).mpr (Or.inl rfl)
  unfold makeFlakeClosureGCRoot
  dsimp only
  rw [if_pos hv]
  rcases hc : (closureLoop valid [res.lockFile]
      (insertPath [] res.sourcePath)).1 with _ | ⟨x, xs⟩
  · rw [hc] at hsrc
    exact absurd hsrc (List.not_mem_nil _)
  · rfl

/-- C7: the closure builder visits each node of the finite acyclic
locked-input graph exactly once (hence at most once) and terminates — the
visit count equals the number of nodes; for a non-local flake reference the
resulting closure set contains the flake's own fetched source store path
plus exactly the dependency store paths of the graph that are currently
valid in the store; for a reference denoting a local path the builder does
nothing (no root is created). -/
theorem closure_builder_correct (valid : String → Bool) (res : ResolvedFlake) :
    (∀ pth s, makeFlakeClosureGCRoot valid ⟨.isPath pth, s⟩ res = .localNoop) ∧
    ((closureLoop valid [res.lockFile] (insertPath [] res.sourcePath)).2
       = sizeL res.lockFile) ∧
    (valid res.sourcePath = true → ∀ t s,
      makeFlakeClosureGCRoot valid ⟨.other t, s⟩ res =
        .rootWritten
          (closureLoop valid [res.lockFile] (insertPath [] res.sourcePath)).1
          (encodeRefName s) ∧
      (∀ p, p ∈ (closureLoop valid [res.lockFile]
          (insertPath [] res.sourcePath)).1 ↔
        p = res.sourcePath ∨
          (p ∈ allPathsL res.lockFile ∧ valid p = true))) := by
  refine ⟨fun pth s => rfl, ?_, ?_⟩
  · have h := closureLoop_count_aux valid (2 * sizeL res.lockFile + 1)
      [res.lockFile] (insertPath [] res.sourcePath) (by simp)
    rw [h]
    simp
  · intro hv t s
    exact ⟨gcroot_other_eq valid t s res hv,
      fun p => closure_set_mem valid res p⟩

/-- Witness for C7 on a one-node lock graph with an always-valid store. -/
theorem closure_builder_correct_witness :
    makeFlakeClosureGCRoot (fun _ => true)
      ⟨.other "gh", "r".toList⟩
      ⟨"/src", [("dep", LIn.node "/d1" [])]⟩ =
      .rootWritten
        (closureLoop (fun _ => true) [[("dep", LIn.node "/d1" [])]]
          (insertPath [] "/src")).1
        (encodeRefName "r".toList) ∧
    (closureLoop (fun _ => true) [[("dep", LIn.node "/d1" [])]]
        (insertPath [] "/src")).2 = sizeL [("dep", LIn.node "/d1" [])] ∧
    makeFlakeClosureGCRoot (fun _ => true)
      ⟨.isPath "/local", "l".toList⟩
      ⟨"/src", [("dep", LIn.node "/d1" [])]⟩ = .localNoop := by
  have h := closure_builder_correct (fun _ => true)
    ⟨"/src", [("dep", LIn.node "/d1" [])]⟩
  exact ⟨(h.2.2 rfl "gh" "r".toList).1, h.2.1, h.1 "/local" "l".toList⟩

/-- C10: the closure set contains the flake's own source store path before
the queue loop starts, so it is never empty when root creation is reached —
the "skip root creation when the closure set is empty" branch is
unreachable — and a manifest plus symlink root is written for every
non-local reference (whose source path passes the validity assertion). -/
theorem closure_root_never_empty (valid : String → Bool) (ref : FlakeRef)
    (res : ResolvedFlake) :
    makeFlakeClosureGCRoot valid ref res ≠ .skippedEmpty ∧
    res.sourcePath ∈ (closureLoop valid [res.lockFile]
        (insertPath [] res.sourcePath)).1 ∧
    (∀ t, ref.data = .other t → valid res.sourcePath = true →
      makeFlakeClosureGCRoot valid ref res =
        .rootWritten
          (closureLoop valid [res.lockFile] (insertPath [] res.sourcePath)).1
          (encodeRefName ref.str)) := by
  have hsrc : res.sourcePath ∈ (closureLoop valid [res.lockFile]
      (insertPath [] res.sourcePath)).1 :=
    (closure_set_mem valid res res.sourcePath).mpr (Or.inl rfl)
  rcases ref with ⟨data, str⟩
  rcases data with pth | t0
  · refine ⟨?_, hsrc, ?_⟩
    · intro h
      exact GCRootResult.noConfusion h
    · intro t ht
      exact absurd ht (by intro he; exact FlakeRefData.noConfusion he)
  · by_cases hv : valid res.sourcePath = true
    · refine ⟨?_, hsrc, ?_⟩
      · rw [gcroot_other_eq valid t0 str res hv]
        intro h
        exact GCRootResult.noConfusion h
      · intro t ht hv2
        rw [FlakeRefData.other.injEq] at ht
        subst ht
        exact gcroot_other_eq valid t0 str res hv
    · refine ⟨?_, hsrc, fun t ht hv2 => absurd hv2 hv⟩
      have : makeFlakeClosureGCRoot valid ⟨.other t0, str⟩ res
          = .assertionFailure := by
        unfold makeFlakeClosureGCRoot
        dsimp only
        rw [if_neg hv]
      rw [this]
      intro h
      exact GCRootResult.noConfusion h

/-- Witness for C10 on a dependency-free lock graph. -/
theorem closure_root_never_empty_witness :
    makeFlakeClosureGCRoot (fun _ => true) ⟨.other "g", "x".toList⟩
        ⟨"/s2", []⟩ ≠ .skippedEmpty ∧
    makeFlakeClosureGCRoot (fun _ => true) ⟨.other "g", "x".toList⟩
        ⟨"/s2", []⟩ =
      .rootWritten
        (closureLoop (fun _ => true) [([] : List (String × LIn))]
          (insertPath [] "/s2")).1
        (encodeRefName "x".toList) := by
  have h := closure_root_never_empty (fun _ => true)
    ⟨.other "g", "x".toList⟩ ⟨"/s2", []⟩
  exact ⟨h.1, h.2.2 "g" rfl rfl⟩

end Installables
